import Mathlib

/-!
RangeDB: the tracing decorator of `query/dbtx.go` and `utils.VersionToInt`.

Go strings are embedded as Lean strings (sequences of characters), Go `int64`
as `Int` with explicit wrap-around, and a Go `(value, error)` result as a pair
whose second component is `none` for a nil error.  A Go string is taken to be
valid UTF-8, so that its bytes below 128 are exactly its characters below 128.
Stateful code is written in explicit state-passing style over a `World` that
carries the observable trace.
-/

namespace RangeDB

/-! ## Go errors -/

/-- Go error values that occur in the embedded code. -/
inductive GoError where
  /-- An error without structure (`errors.New`), such as a driver error. -/
  | errorString (msg : String)
  /-- A value of the string type `utils.PermError`. -/
  | PermError (msg : String)
  /-- A `*strconv.NumError` with its fields `Func`, `Num` and `Err`. -/
  | NumError (func num : String) (err : GoError)
  /-- The result of `fmt.Errorf(format, s.Error(), w)` where `format` has one
  `%s` verb followed by one `%w` verb: it wraps `w`, and only `w`. -/
  | Errorf (format : String) (s : GoError) (w : GoError)
  deriving DecidableEq, Repr

namespace query

/-! ## Data model of the executor interface -/

/-- A bound statement parameter or a column value (a Go `interface{}`). -/
inductive Value where
  | null
  | int (n : Int)
  | text (s : String)
  | bool (b : Bool)
  deriving DecidableEq, Repr

/-- A `context.Context`: whether it is cancelled, and its tracing lineage
(the identifiers of the enclosing spans, innermost first). -/
structure Context where
  cancelled : Bool
  lineage : List Nat
  deriving DecidableEq, Repr

/-- A tracing span handle: its identity and the label it was created with. -/
structure Span where
  id : Nat
  label : String
  deriving DecidableEq, Repr

/-- A `pgconn.CommandTag`. -/
structure CommandTag where
  s : String
  deriving DecidableEq, Repr

/-- A `pgx.Rows`: the row sequence of a query. -/
abbrev Rows := List (List Value)

/-- A `pgx.Row`: a row handle, which carries the values or the error that
`Scan` will report. -/
structure Row where
  err : Option GoError
  values : List Value
  deriving DecidableEq, Repr

/-- A `pgx.Identifier`: the parts of a possibly qualified name. -/
abbrev Identifier := List String

/-- A `pgx.CopyFromSource`: the rows to be copied. -/
abbrev CopyFromSource := List (List Value)

/-- One invocation of an operation of a concrete executor, with the arguments
it received. -/
inductive Call where
  | Exec (ctx : Context) (s : String) (i : List Value)
  | Query (ctx : Context) (s : String) (i : List Value)
  | QueryRow (ctx : Context) (s : String) (i : List Value)
  | CopyFrom (ctx : Context) (tableName : Identifier) (columnNames : List String)
      (rowSrc : CopyFromSource)
  deriving DecidableEq, Repr

/-- Observable events: a span is opened, a span is closed, a concrete executor
is invoked. -/
inductive Event where
  | spanStart (span : Span)
  | spanEnd (span : Span)
  | call (c : Call)
  deriving DecidableEq, Repr

/-- The state threaded through every operation: the trace of events so far, the
next unused span identifier, and the state of the backing store. -/
structure World (σ : Type) where
  trace : List Event
  nextSpan : Nat
  db : σ

/-- The interface `DBTX` (generated by sqlc): the four operations of an
executor, in state-passing style. -/
structure DBTX (σ : Type) where
  Exec : Context → String → List Value → World σ → (CommandTag × Option GoError) × World σ
  Query : Context → String → List Value → World σ → (Rows × Option GoError) × World σ
  QueryRow : Context → String → List Value → World σ → Row × World σ
  CopyFrom : Context → Identifier → List String → CopyFromSource → World σ →
    (Int × Option GoError) × World σ

/-! ## Collaborators that are not part of `dbtx.go` -/

/-- Modelled from the spec: `createSpan`, the span facility of package `query`,
whose source is not available.  It takes a context and a label and returns the
derived context and a span handle; it never fails.  Opening the span is
recorded on the trace. -/
def createSpan {σ : Type} (ctx : Context) (label : String) (w : World σ) :
    (Context × Span) × World σ :=
  let span : Span := { id := w.nextSpan, label := label }
  (({ ctx with lineage := span.id :: ctx.lineage }, span),
   { w with trace := w.trace ++ [Event.spanStart span], nextSpan := w.nextSpan + 1 })

/-- Modelled from the spec: the end operation of a span handle.  Closing the
span is recorded on the trace. -/
def Span.End {σ : Type} (span : Span) (w : World σ) : World σ :=
  { w with trace := w.trace ++ [Event.spanEnd span] }

/-- Go's `strings.ReplaceAll(s, string(old), new)` for a one-character `old`. -/
def replaceAllChar (s : List Char) (old : Char) (new : List Char) : List Char :=
  match s with
  | [] => []
  | c :: cs => (if c = old then new else [c]) ++ replaceAllChar cs old new

/-- Go's `strings.Join(parts, sep)`. -/
def stringsJoin (parts : List (List Char)) (sep : List Char) : List Char :=
  match parts with
  | [] => []
  | [p] => p
  | p :: q :: rest => p ++ sep ++ stringsJoin (q :: rest) sep

/-- The double-quote character. -/
def dquote : Char := Char.ofNat 34

/-- The NUL character. -/
def nul : Char := Char.ofNat 0

/-- Modelled from the spec: the treatment of one part of an identifier by
`pgx.Identifier.Sanitize`, a method of the pgx library whose source is not
available.  Every NUL is removed from the part, every double quote in it is
doubled, and the part is enclosed in double quotes. -/
def sanitizePart (part : String) : List Char :=
  [dquote] ++ replaceAllChar (replaceAllChar part.data nul []) dquote [dquote, dquote]
    ++ [dquote]

/-- Modelled from the spec: `pgx.Identifier.Sanitize`, a method of the pgx
library whose source is not available.  The sanitized parts are joined with
a dot. -/
def Identifier.Sanitize (ident : Identifier) : String :=
  String.mk (stringsJoin (ident.map sanitizePart) ['.'])

/-- Reads a text in which every double quote is doubled and gives the text
with each pair of double quotes replaced by one; `none` when a double quote
stands alone. -/
def undouble : List Char → Option (List Char)
  | [] => some []
  | [c] => if c = dquote then none else some [c]
  | c :: d :: rest =>
    if c = dquote then
      if d = dquote then (undouble rest).map fun r => dquote :: r else none
    else (undouble (d :: rest)).map fun r => c :: r

/-! ## `tracingDBTX` -/

/-- The decorator `tracingDBTX`: it owns exactly one executor. -/
structure tracingDBTX (σ : Type) where
  db : DBTX σ

/-- The method `tracingDBTX.Exec`: the deferred `span.End()` runs once the wrapped call
has returned. -/
def tracingDBTX.Exec {σ : Type} (t : tracingDBTX σ) (ctx : Context) (s : String)
    (i : List Value) (w : World σ) : (CommandTag × Option GoError) × World σ :=
  let ((ctx, span), w) := createSpan ctx s w
  let (r, w) := t.db.Exec ctx s i w
  (r, span.End w)

/-- The method `tracingDBTX.Query`. -/
def tracingDBTX.Query {σ : Type} (t : tracingDBTX σ) (ctx : Context) (s : String)
    (i : List Value) (w : World σ) : (Rows × Option GoError) × World σ :=
  let ((ctx, span), w) := createSpan ctx s w
  let (r, w) := t.db.Query ctx s i w
  (r, span.End w)

/-- The method `tracingDBTX.QueryRow`. -/
def tracingDBTX.QueryRow {σ : Type} (t : tracingDBTX σ) (ctx : Context) (s : String)
    (i : List Value) (w : World σ) : Row × World σ :=
  let ((ctx, span), w) := createSpan ctx s w
  let (r, w) := t.db.QueryRow ctx s i w
  (r, span.End w)

/-- The method `tracingDBTX.CopyFrom`: the label is `"copyFrom:"+tableName.Sanitize()`. -/
def tracingDBTX.CopyFrom {σ : Type} (t : tracingDBTX σ) (ctx : Context)
    (tableName : Identifier) (columnNames : List String) (rowSrc : CopyFromSource)
    (w : World σ) : (Int × Option GoError) × World σ :=
  let ((ctx, span), w) := createSpan ctx ("copyFrom:" ++ Identifier.Sanitize tableName) w
  let (r, w) := t.db.CopyFrom ctx tableName columnNames rowSrc w
  (r, span.End w)

/-- A `*tracingDBTX` satisfies the interface `DBTX`, which is how
`NewWithTracing` hands it to `New`. -/
def tracingDBTX.toDBTX {σ : Type} (t : tracingDBTX σ) : DBTX σ where
  Exec := t.Exec
  Query := t.Query
  QueryRow := t.QueryRow
  CopyFrom := t.CopyFrom

/-! ## A concrete executor under observation -/

/-- The behaviour of a concrete connection: four arbitrary functions of the
arguments and the state of the backing store. -/
structure Conn (σ : Type) where
  Exec : Context → String → List Value → σ → (CommandTag × Option GoError) × σ
  Query : Context → String → List Value → σ → (Rows × Option GoError) × σ
  QueryRow : Context → String → List Value → σ → Row × σ
  CopyFrom : Context → Identifier → List String → CopyFromSource → σ →
    (Int × Option GoError) × σ

/-- A concrete connection as an executor: every invocation is recorded on the
trace with the arguments it received, then the connection acts on the store. -/
def Conn.toDBTX {σ : Type} (c : Conn σ) : DBTX σ where
  Exec ctx s i w :=
    let (r, d) := c.Exec ctx s i w.db
    (r, { w with trace := w.trace ++ [Event.call (Call.Exec ctx s i)], db := d })
  Query ctx s i w :=
    let (r, d) := c.Query ctx s i w.db
    (r, { w with trace := w.trace ++ [Event.call (Call.Query ctx s i)], db := d })
  QueryRow ctx s i w :=
    let (r, d) := c.QueryRow ctx s i w.db
    (r, { w with trace := w.trace ++ [Event.call (Call.QueryRow ctx s i)], db := d })
  CopyFrom ctx tableName columnNames rowSrc w :=
    let (r, d) := c.CopyFrom ctx tableName columnNames rowSrc w.db
    (r, { w with
            trace := w.trace ++ [Event.call (Call.CopyFrom ctx tableName columnNames rowSrc)],
            db := d })

/-- The base executor wrapped `n` times in `tracingDBTX`. -/
def wrapTimes {σ : Type} : Nat → DBTX σ → DBTX σ
  | 0, db => db
  | n + 1, db => (tracingDBTX.mk (wrapTimes n db)).toDBTX

/-- The spans `first, first+1, …` (`n` of them), all with the same label. -/
def spanRun (first : Nat) (label : String) : Nat → List Span
  | 0 => []
  | n + 1 => { id := first, label := label } :: spanRun (first + 1) label n

/-- The context after deriving a child context for each of the given spans,
the first span being the outermost. -/
def nested (ctx : Context) (spans : List Span) : Context :=
  { ctx with lineage := (spans.reverse.map fun sp => sp.id) ++ ctx.lineage }

/-- The events appended to a trace between two moments. -/
def appended (before after : List Event) : List Event :=
  after.drop before.length

/-- The labels of the spans opened by the given events, in order. -/
def openedLabels (es : List Event) : List String :=
  es.filterMap fun e =>
    match e with
    | Event.spanStart sp => some sp.label
    | _ => none

/-- The trace `after` extends `before` by a bracket of the span `sp` around the
events `inner`: the span is opened, then `inner` happens, then the span is
closed; within the bracket the span is opened once and closed once. -/
def Bracket (sp : Span) (inner before after : List Event) : Prop :=
  after = before ++ Event.spanStart sp :: inner ++ [Event.spanEnd sp] ∧
  (Event.spanStart sp :: inner ++ [Event.spanEnd sp]).count (Event.spanStart sp) = 1 ∧
  (Event.spanStart sp :: inner ++ [Event.spanEnd sp]).count (Event.spanEnd sp) = 1

/-- The executor invocations among the given events, in order. -/
def calls (es : List Event) : List Call :=
  es.filterMap fun e =>
    match e with
    | Event.call c => some c
    | _ => none

/-- The events of a properly nested run: the spans are opened in order, the
executor is invoked, and the spans are closed in the reverse order. -/
def nestedTrace (spans : List Span) (c : Call) : List Event :=
  spans.map Event.spanStart ++ [Event.call c] ++ spans.reverse.map Event.spanEnd

/-- An in-memory connection for concrete runs.  Its store counts the rows that
were copied in; on a cancelled context every operation fails. -/
def fakeConn : Conn Nat where
  Exec ctx _ _ d :=
    if ctx.cancelled then
      (({ s := "" }, some (GoError.errorString "context canceled")), d)
    else (({ s := "DELETE 1" }, none), d)
  Query ctx _ _ d :=
    if ctx.cancelled then (([], some (GoError.errorString "context canceled")), d)
    else (([[Value.int 1]], none), d)
  QueryRow _ _ _ d :=
    ({ err := some (GoError.errorString "no rows in result set"), values := [] }, d)
  CopyFrom ctx _ _ rowSrc d :=
    if ctx.cancelled then ((0, some (GoError.errorString "context canceled")), d)
    else ((rowSrc.length, none), d + rowSrc.length)

/-- A context that is already cancelled. -/
def cancelledCtx : Context := { cancelled := true, lineage := [] }

/-- A live context. -/
def liveCtx : Context := { cancelled := false, lineage := [] }

/-- The initial state: nothing has happened and the store is empty. -/
def world0 : World Nat := { trace := [], nextSpan := 0, db := 0 }

/-- A row source of three rows. -/
def threeRows : CopyFromSource :=
  [[Value.int 1, Value.int 10], [Value.int 2, Value.int 20], [Value.int 3, Value.int 30]]

end query
end RangeDB

namespace RangeDB
namespace utils

/-! ## Go library functions used by `VersionToInt` -/

/-- Wrap-around of an integer into the range of `int64`. -/
def wrap64 (x : Int) : Int :=
  (x + 2 ^ 63) % 2 ^ 64 - 2 ^ 63

/-- Multiplication of `int64` values. -/
def mul64 (a b : Int) : Int := wrap64 (a * b)

/-- Addition of `int64` values. -/
def add64 (a b : Int) : Int := wrap64 (a + b)

/-- The scan of `strings.Split(s, ".")`, left to right: `cur` is the part
collected since the last separator. -/
def splitFrom (cur : List Char) : List Char → List (List Char)
  | [] => [cur]
  | c :: cs => if c = '.' then cur :: splitFrom [] cs else splitFrom (cur ++ [c]) cs

/-- Go's `strings.Split(s, ".")`. -/
def stringsSplit (s : List Char) : List (List Char) :=
  splitFrom [] s

/-- The error `strconv.ErrSyntax`. -/
def ErrSyntax : GoError := GoError.errorString "invalid syntax"

/-- The error `strconv.ErrRange`. -/
def ErrRange : GoError := GoError.errorString "value out of range"

/-- The largest `uint64`. -/
def maxUint64 : Nat := 2 ^ 64 - 1

/-- The loop of `strconv.ParseUint(s, 10, 64)` over the bytes of `s`, with `n`
the `uint64` accumulated so far.  The result is the value and the kind of
error, if any.  A byte that is not a decimal digit is a syntax error (a letter
is a digit of a base above ten, any other byte is no digit at all).  A value
that does not fit is a range error, reported with the largest value. -/
def parseUintLoop : List Char → Nat → Nat × Option GoError
  | [], n => (n, none)
  | c :: cs, n =>
    if 48 ≤ c.toNat ∧ c.toNat ≤ 57 then
      let d := c.toNat - 48
      if n ≥ maxUint64 / 10 + 1 then (maxUint64, some ErrRange)
      else
        let n := n * 10 % 2 ^ 64
        let n1 := (n + d) % 2 ^ 64
        if n1 < n ∨ n1 > maxUint64 then (maxUint64, some ErrRange)
        else parseUintLoop cs n1
    else (0, some ErrSyntax)

/-- Go's `strconv.ParseUint(s, 10, 64)`: the value and the kind of error, if any. -/
def ParseUint (s : List Char) : Nat × Option GoError :=
  if s = [] then (0, some ErrSyntax) else parseUintLoop s 0

/-- The range check at the end of `strconv.ParseInt(s, 10, 64)`: `un` is the
magnitude that `ParseUint` returned, `neg` whether the input had a minus sign,
`s0` the whole input. -/
def parseIntRange (neg : Bool) (un : Nat) (s0 : List Char) : Int × Option GoError :=
  let cutoff : Nat := 2 ^ 63
  if neg = false ∧ un ≥ cutoff then
    (Int.ofNat (cutoff - 1), some (GoError.NumError "ParseInt" (String.mk s0) ErrRange))
  else if neg = true ∧ un > cutoff then
    (-Int.ofNat cutoff, some (GoError.NumError "ParseInt" (String.mk s0) ErrRange))
  else
    let n := wrap64 (Int.ofNat un)
    (if neg then wrap64 (-n) else n, none)

/-- Go's `strconv.ParseInt(s, 10, 64)`: the value and the error, if any, which is
a `*NumError` naming the function and the input.  An error of `ParseUint`
other than a range error is returned at once; after a range error the range
check sees the largest `uint64`. -/
def ParseInt (s : List Char) : Int × Option GoError :=
  match s with
  | [] => (0, some (GoError.NumError "ParseInt" (String.mk s) ErrSyntax))
  | c :: cs =>
    let neg := decide (c = '-')
    let body := if c = '+' ∨ c = '-' then cs else s
    match ParseUint body with
    | (un, some e) =>
      if e ≠ ErrRange then (0, some (GoError.NumError "ParseInt" (String.mk s) e))
      else parseIntRange neg un s
    | (un, none) => parseIntRange neg un s

/-- Go's `errors.Is(err, target)` for a target of a comparable value type: `err` or
an error in its chain of wrapped errors equals the target. -/
def errorsIs : GoError → GoError → Bool
  | GoError.NumError f n inner, target =>
    decide (GoError.NumError f n inner = target) || errorsIs inner target
  | GoError.Errorf f a wrapped, target =>
    decide (GoError.Errorf f a wrapped = target) || errorsIs wrapped target
  | GoError.errorString m, target => decide (GoError.errorString m = target)
  | GoError.PermError m, target => decide (GoError.PermError m = target)

/-! ## `VersionToInt` -/

/-- The error `ErrVersionBadFormat`. -/
def ErrVersionBadFormat : GoError := GoError.PermError "bad version format"

/-- The loop of `VersionToInt` over `sParts` from index `i` on: every part is
parsed and stored in `iParts`; the first part that does not parse ends the
loop with the wrapping error. -/
def fillParts : List (List Char) → Nat → List Int → Except GoError (List Int)
  | [], _, iParts => Except.ok iParts
  | p :: rest, i, iParts =>
    match ParseInt p with
    | (vp, none) => fillParts rest (i + 1) (iParts.set i vp)
    | (_, some err) =>
      Except.error (GoError.Errorf "error in ParseInt: %s %w" err ErrVersionBadFormat)

/-- The function `VersionToInt`: the value and the error, if any. -/
def VersionToInt (v : String) : Int × Option GoError :=
  let sParts := stringsSplit v.data
  if sParts.length > 3 then (-1, some ErrVersionBadFormat)
  else
    match fillParts sParts 0 [0, 0, 0] with
    | Except.error err => (-1, some err)
    | Except.ok iParts =>
      (add64
        (add64 (mul64 (mul64 (iParts.getD 0 0) 10000) 10000) (mul64 (iParts.getD 1 0) 10000))
        (iParts.getD 2 0), none)

/-! ## The reading of a version that the description of `VersionToInt` gives -/

/-- The number that a sequence of decimal digits denotes. -/
def decimalValue (ds : List Char) : Nat :=
  ds.foldl (fun n c => 10 * n + (c.toNat - 48)) 0

/-- Whether a character is a decimal digit. -/
def isDecimalDigit (c : Char) : Bool :=
  decide (48 ≤ c.toNat ∧ c.toNat ≤ 57)

/-- The value of a text that is a valid base-10 signed 64-bit integer: an
optional sign, then at least one decimal digit and nothing else, the number
denoted lying between `-2^63` and `2^63 - 1`; `none` for any other text. -/
def decimalInt64? (s : List Char) : Option Int :=
  let neg := decide (s.head? = some '-')
  let ds := if s.head? = some '+' ∨ s.head? = some '-' then s.tail else s
  if ds ≠ [] ∧ ds.all isDecimalDigit = true then
    let x : Int := if neg then -Int.ofNat (decimalValue ds) else Int.ofNat (decimalValue ds)
    if -2 ^ 63 ≤ x ∧ x ≤ 2 ^ 63 - 1 then some x else none
  else none

/-- The components (major, minor, patch) of a version: the text split at the
dots into at most three parts, each a valid base-10 signed 64-bit integer, a
missing second or third part counting as 0; `none` for any other text. -/
def components? (v : String) : Option (Int × Int × Int) :=
  match (stringsSplit v.data).map decimalInt64? with
  | [some p0] => some (p0, 0, 0)
  | [some p0, some p1] => some (p0, p1, 0)
  | [some p0, some p1, some p2] => some (p0, p1, p2)
  | _ => none

/-- The lexicographic order on component triples. -/
def lexLt (a b : Int × Int × Int) : Prop :=
  a.1 < b.1 ∨ (a.1 = b.1 ∧ (a.2.1 < b.2.1 ∨ (a.2.1 = b.2.1 ∧ a.2.2 < b.2.2)))

/-- All three components lie between 0 and 9999. -/
def inRange (a : Int × Int × Int) : Prop :=
  (0 ≤ a.1 ∧ a.1 ≤ 9999) ∧ (0 ≤ a.2.1 ∧ a.2.1 ≤ 9999) ∧ (0 ≤ a.2.2 ∧ a.2.2 ≤ 9999)

end utils
end RangeDB

namespace RangeDB
namespace query

/-! ## Properties of `tracingDBTX` -/

theorem bracket_of_fresh (sp : Span) (inner before : List Event)
    (h : ∀ e ∈ inner, e ≠ Event.spanStart sp ∧ e ≠ Event.spanEnd sp) :
    Bracket sp inner before (before ++ Event.spanStart sp :: inner ++ [Event.spanEnd sp]) := by
  refine ⟨rfl, ?_, ?_⟩
  · have h0 : inner.count (Event.spanStart sp) = 0 :=
      List.count_eq_zero.mpr fun hm => (h _ hm).1 rfl
    simp [List.count_cons, List.count_append, h0]
  · have h0 : inner.count (Event.spanEnd sp) = 0 :=
      List.count_eq_zero.mpr fun hm => (h _ hm).2 rfl
    simp [List.count_cons, List.count_append, h0]

/-- C1: each of the four operations of the decorator returns exactly the
value(s) that the wrapped executor's same operation returns when it is called
with the span-derived context and the same arguments; in particular the error
of the decorator is nil exactly when the error of the wrapped call is nil. -/
theorem tracingDBTX_transparent {σ : Type} (t : tracingDBTX σ) (ctx : Context) (s : String)
    (i : List Value) (tableName : Identifier) (columnNames : List String)
    (rowSrc : CopyFromSource) (w : World σ) :
    ((t.Exec ctx s i w).1 =
        (t.db.Exec (createSpan ctx s w).1.1 s i (createSpan ctx s w).2).1 ∧
      ((t.Exec ctx s i w).1.2 = none ↔
        (t.db.Exec (createSpan ctx s w).1.1 s i (createSpan ctx s w).2).1.2 = none)) ∧
    ((t.Query ctx s i w).1 =
        (t.db.Query (createSpan ctx s w).1.1 s i (createSpan ctx s w).2).1 ∧
      ((t.Query ctx s i w).1.2 = none ↔
        (t.db.Query (createSpan ctx s w).1.1 s i (createSpan ctx s w).2).1.2 = none)) ∧
    (t.QueryRow ctx s i w).1 =
        (t.db.QueryRow (createSpan ctx s w).1.1 s i (createSpan ctx s w).2).1 ∧
    ((t.CopyFrom ctx tableName columnNames rowSrc w).1 =
        (t.db.CopyFrom
          (createSpan ctx ("copyFrom:" ++ Identifier.Sanitize tableName) w).1.1
          tableName columnNames rowSrc
          (createSpan ctx ("copyFrom:" ++ Identifier.Sanitize tableName) w).2).1 ∧
      ((t.CopyFrom ctx tableName columnNames rowSrc w).1.2 = none ↔
        (t.db.CopyFrom
          (createSpan ctx ("copyFrom:" ++ Identifier.Sanitize tableName) w).1.1
          tableName columnNames rowSrc
          (createSpan ctx ("copyFrom:" ++ Identifier.Sanitize tableName) w).2).1.2 = none)) := by
  refine ⟨⟨rfl, Iff.rfl⟩, ⟨rfl, Iff.rfl⟩, rfl, ⟨rfl, Iff.rfl⟩⟩

/-- C2: every call of the decorator opens one span before the wrapped call and
closes that same span after the wrapped call has returned, whatever the wrapped
call returns: if the wrapped call extends the trace by the events `inner`, none
of which opens or closes the new span, then the decorator extends the trace by
the opening of the span, `inner`, and the closing of the span, and within these
events the span is opened exactly once and closed exactly once. -/
theorem tracingDBTX_span_bracket {σ : Type} (t : tracingDBTX σ) (ctx : Context) (s : String)
    (i : List Value) (tableName : Identifier) (columnNames : List String)
    (rowSrc : CopyFromSource) (w : World σ) (inner : List Event)
    (hfresh : ∀ e ∈ inner,
      (e ≠ Event.spanStart (createSpan ctx s w).1.2 ∧
        e ≠ Event.spanEnd (createSpan ctx s w).1.2) ∧
      (e ≠ Event.spanStart
          (createSpan ctx ("copyFrom:" ++ Identifier.Sanitize tableName) w).1.2 ∧
        e ≠ Event.spanEnd
          (createSpan ctx ("copyFrom:" ++ Identifier.Sanitize tableName) w).1.2)) :
    ((t.db.Exec (createSpan ctx s w).1.1 s i (createSpan ctx s w).2).2.trace =
        (createSpan ctx s w).2.trace ++ inner →
      Bracket (createSpan ctx s w).1.2 inner w.trace (t.Exec ctx s i w).2.trace) ∧
    ((t.db.Query (createSpan ctx s w).1.1 s i (createSpan ctx s w).2).2.trace =
        (createSpan ctx s w).2.trace ++ inner →
      Bracket (createSpan ctx s w).1.2 inner w.trace (t.Query ctx s i w).2.trace) ∧
    ((t.db.QueryRow (createSpan ctx s w).1.1 s i (createSpan ctx s w).2).2.trace =
        (createSpan ctx s w).2.trace ++ inner →
      Bracket (createSpan ctx s w).1.2 inner w.trace (t.QueryRow ctx s i w).2.trace) ∧
    ((t.db.CopyFrom (createSpan ctx ("copyFrom:" ++ Identifier.Sanitize tableName) w).1.1
          tableName columnNames rowSrc
          (createSpan ctx ("copyFrom:" ++ Identifier.Sanitize tableName) w).2).2.trace =
        (createSpan ctx ("copyFrom:" ++ Identifier.Sanitize tableName) w).2.trace ++ inner →
      Bracket (createSpan ctx ("copyFrom:" ++ Identifier.Sanitize tableName) w).1.2 inner
        w.trace (t.CopyFrom ctx tableName columnNames rowSrc w).2.trace) := by
  have hs := bracket_of_fresh (createSpan ctx s w).1.2 inner w.trace
    (fun e he => (hfresh e he).1)
  have hc := bracket_of_fresh
    (createSpan ctx ("copyFrom:" ++ Identifier.Sanitize tableName) w).1.2 inner w.trace
    (fun e he => (hfresh e he).2)
  refine ⟨fun h => ?_, fun h => ?_, fun h => ?_, fun h => ?_⟩
  · have e : (t.Exec ctx s i w).2.trace =
        w.trace ++ Event.spanStart (createSpan ctx s w).1.2 :: inner ++
          [Event.spanEnd (createSpan ctx s w).1.2] := by
      show (t.db.Exec (createSpan ctx s w).1.1 s i (createSpan ctx s w).2).2.trace ++ _ = _
      rw [h]; simp [createSpan]
    rw [e]; exact hs
  · have e : (t.Query ctx s i w).2.trace =
        w.trace ++ Event.spanStart (createSpan ctx s w).1.2 :: inner ++
          [Event.spanEnd (createSpan ctx s w).1.2] := by
      show (t.db.Query (createSpan ctx s w).1.1 s i (createSpan ctx s w).2).2.trace ++ _ = _
      rw [h]; simp [createSpan]
    rw [e]; exact hs
  · have e : (t.QueryRow ctx s i w).2.trace =
        w.trace ++ Event.spanStart (createSpan ctx s w).1.2 :: inner ++
          [Event.spanEnd (createSpan ctx s w).1.2] := by
      show (t.db.QueryRow (createSpan ctx s w).1.1 s i (createSpan ctx s w).2).2.trace ++ _ = _
      rw [h]; simp [createSpan]
    rw [e]; exact hs
  · have e : (t.CopyFrom ctx tableName columnNames rowSrc w).2.trace =
        w.trace ++ Event.spanStart
          (createSpan ctx ("copyFrom:" ++ Identifier.Sanitize tableName) w).1.2 :: inner ++
          [Event.spanEnd
            (createSpan ctx ("copyFrom:" ++ Identifier.Sanitize tableName) w).1.2] := by
      show (t.db.CopyFrom
        (createSpan ctx ("copyFrom:" ++ Identifier.Sanitize tableName) w).1.1 tableName
        columnNames rowSrc
        (createSpan ctx ("copyFrom:" ++ Identifier.Sanitize tableName) w).2).2.trace ++ _ = _
      rw [h]; simp [createSpan]
    rw [e]; exact hc

/-- A witness of C2: on an already-cancelled context the wrapped call fails,
and the span is still opened once and closed once around it. -/
theorem tracingDBTX_span_bracket_witness :
    Bracket { id := 0, label := "DELETE FROM x" }
      [Event.call (Call.Exec { cancelled := true, lineage := [0] } "DELETE FROM x" [])] []
      ((tracingDBTX.mk fakeConn.toDBTX).Exec cancelledCtx "DELETE FROM x" [] world0).2.trace ∧
    ((tracingDBTX.mk fakeConn.toDBTX).Exec cancelledCtx "DELETE FROM x" [] world0).1.2 =
      some (GoError.errorString "context canceled") :=
  ⟨(tracingDBTX_span_bracket (tracingDBTX.mk fakeConn.toDBTX) cancelledCtx "DELETE FROM x" []
      ["orders"] ["id", "total"] threeRows world0
      [Event.call (Call.Exec { cancelled := true, lineage := [0] } "DELETE FROM x" [])]
      (by
        intro e he
        rw [List.mem_singleton] at he
        subst he
        simp)).1 rfl, rfl⟩

theorem appended_append (xs ys : List Event) : appended xs (xs ++ ys) = ys := by
  simp [appended]

/-- C3: a call of the decorator around a concrete connection invokes the
operation of the same name exactly once and no other operation; the invocation
receives the context returned by span creation and the original arguments, and
the store is changed by that one invocation only.  This holds for a row source
without rows as for any other. -/
theorem tracingDBTX_forwards_once {σ : Type} (c : Conn σ) (ctx : Context) (s : String)
    (i : List Value) (tableName : Identifier) (columnNames : List String)
    (rowSrc : CopyFromSource) (w : World σ) :
    (calls (appended w.trace ((tracingDBTX.mk c.toDBTX).Exec ctx s i w).2.trace) =
        [Call.Exec (createSpan ctx s w).1.1 s i] ∧
      ((tracingDBTX.mk c.toDBTX).Exec ctx s i w).2.db =
        (c.Exec (createSpan ctx s w).1.1 s i w.db).2) ∧
    (calls (appended w.trace ((tracingDBTX.mk c.toDBTX).Query ctx s i w).2.trace) =
        [Call.Query (createSpan ctx s w).1.1 s i] ∧
      ((tracingDBTX.mk c.toDBTX).Query ctx s i w).2.db =
        (c.Query (createSpan ctx s w).1.1 s i w.db).2) ∧
    (calls (appended w.trace ((tracingDBTX.mk c.toDBTX).QueryRow ctx s i w).2.trace) =
        [Call.QueryRow (createSpan ctx s w).1.1 s i] ∧
      ((tracingDBTX.mk c.toDBTX).QueryRow ctx s i w).2.db =
        (c.QueryRow (createSpan ctx s w).1.1 s i w.db).2) ∧
    (calls (appended w.trace
          ((tracingDBTX.mk c.toDBTX).CopyFrom ctx tableName columnNames rowSrc w).2.trace) =
        [Call.CopyFrom (createSpan ctx ("copyFrom:" ++ Identifier.Sanitize tableName) w).1.1
          tableName columnNames rowSrc] ∧
      ((tracingDBTX.mk c.toDBTX).CopyFrom ctx tableName columnNames rowSrc w).2.db =
        (c.CopyFrom (createSpan ctx ("copyFrom:" ++ Identifier.Sanitize tableName) w).1.1
          tableName columnNames rowSrc w.db).2) ∧
    (calls (appended w.trace
          ((tracingDBTX.mk c.toDBTX).CopyFrom ctx tableName columnNames [] w).2.trace) =
        [Call.CopyFrom (createSpan ctx ("copyFrom:" ++ Identifier.Sanitize tableName) w).1.1
          tableName columnNames []]) := by
  simp [tracingDBTX.Exec, tracingDBTX.Query, tracingDBTX.QueryRow, tracingDBTX.CopyFrom,
    Conn.toDBTX, createSpan, Span.End, appended, calls]

/-- C4: for every statement string `s`, the one span opened by `Exec`, by
`Query` and by `QueryRow` is labelled exactly `s`. -/
theorem tracingDBTX_statement_label {σ : Type} (c : Conn σ) (ctx : Context) (s : String)
    (i : List Value) (w : World σ) :
    openedLabels (appended w.trace ((tracingDBTX.mk c.toDBTX).Exec ctx s i w).2.trace) = [s] ∧
    openedLabels (appended w.trace ((tracingDBTX.mk c.toDBTX).Query ctx s i w).2.trace) = [s] ∧
    openedLabels (appended w.trace ((tracingDBTX.mk c.toDBTX).QueryRow ctx s i w).2.trace) =
      [s] := by
  simp [tracingDBTX.Exec, tracingDBTX.Query, tracingDBTX.QueryRow,
    Conn.toDBTX, createSpan, Span.End, appended, openedLabels]

theorem mem_replaceAllChar {x old : Char} {new s : List Char}
    (h : x ∈ replaceAllChar s old new) : (x ∈ s ∧ x ≠ old) ∨ x ∈ new := by
  induction s with
  | nil => simp [replaceAllChar] at h
  | cons c cs ih =>
    rw [replaceAllChar, List.mem_append] at h
    rcases h with h | h
    · by_cases hc : c = old
      · rw [if_pos hc] at h
        exact Or.inr h
      · rw [if_neg hc, List.mem_singleton] at h
        subst h
        exact Or.inl ⟨List.mem_cons_self _ _, hc⟩
    · rcases ih h with ⟨h1, h2⟩ | h1
      · exact Or.inl ⟨List.mem_cons_of_mem _ h1, h2⟩
      · exact Or.inr h1

theorem replaceAllChar_nil_eq_filter (s : List Char) (old : Char) :
    replaceAllChar s old [] = s.filter fun c => decide (c ≠ old) := by
  induction s with
  | nil => rfl
  | cons c cs ih =>
    by_cases hc : c = old
    · simp [replaceAllChar, hc, ih]
    · simp [replaceAllChar, hc, ih]

theorem undouble_replaceAllChar (s : List Char) :
    undouble (replaceAllChar s dquote [dquote, dquote]) = some s := by
  induction s with
  | nil => rfl
  | cons c cs ih =>
    by_cases hc : c = dquote
    · subst hc
      simp [replaceAllChar, undouble, ih]
    · rw [replaceAllChar, if_neg hc]
      cases hr : replaceAllChar cs dquote [dquote, dquote] with
      | nil =>
        rw [hr] at ih
        simp only [undouble, Option.some.injEq] at ih
        subst ih
        simp [undouble, hc]
      | cons d rest =>
        rw [hr] at ih
        simp [undouble, hc, ih]

theorem nul_not_mem_sanitizePart (part : String) : nul ∉ sanitizePart part := by
  intro h
  simp only [sanitizePart, List.mem_append, List.mem_singleton] at h
  rcases h with (h | h) | h
  · exact absurd h (by decide)
  · rcases mem_replaceAllChar h with ⟨h1, _⟩ | h1
    · rcases mem_replaceAllChar h1 with ⟨_, h3⟩ | h3
      · exact h3 rfl
      · simp at h3
    · simp only [List.mem_cons, List.mem_singleton] at h1
      rcases h1 with h1 | h1 | h1
      · exact absurd h1 (by decide)
      · exact absurd h1 (by decide)
      · simp at h1
  · exact absurd h (by decide)

theorem not_mem_stringsJoin {x : Char} {sep : List Char} (hsep : x ∉ sep) :
    ∀ parts : List (List Char), (∀ p ∈ parts, x ∉ p) → x ∉ stringsJoin parts sep
  | [], _ => by simp [stringsJoin]
  | [p], h => by simpa [stringsJoin] using h p (List.mem_singleton.mpr rfl)
  | p :: q :: rest, h => by
    have ih := not_mem_stringsJoin hsep (q :: rest)
      (fun r hr => h r (List.mem_cons_of_mem _ hr))
    have hp := h p (List.mem_cons_self _ _)
    simp only [stringsJoin, List.mem_append, not_or]
    exact ⟨⟨hp, hsep⟩, ih⟩

/-- C5: for every table identifier the one span opened by `CopyFrom` is labelled
`"copyFrom:"` followed by the sanitized identifier.  The sanitized identifier is
the dot-separated sequence of its sanitized parts; a sanitized part is enclosed
in double quotes, and what stands between them reads, once every pair of double
quotes is taken for one double quote, as the part without its NULs.  The label
contains no NUL. -/
theorem tracingDBTX_copyFrom_label {σ : Type} (c : Conn σ) (ctx : Context)
    (tableName : Identifier) (columnNames : List String) (rowSrc : CopyFromSource)
    (w : World σ) :
    openedLabels (appended w.trace
        ((tracingDBTX.mk c.toDBTX).CopyFrom ctx tableName columnNames rowSrc w).2.trace) =
      ["copyFrom:" ++ Identifier.Sanitize tableName] ∧
    (Identifier.Sanitize tableName).data = stringsJoin (tableName.map sanitizePart) ['.'] ∧
    (∀ part ∈ tableName, ∃ body : List Char,
      sanitizePart part = [dquote] ++ body ++ [dquote] ∧
      undouble body = some (part.data.filter fun ch => decide (ch ≠ nul))) ∧
    nul ∉ ("copyFrom:" ++ Identifier.Sanitize tableName).data := by
  refine ⟨?_, rfl, ?_, ?_⟩
  · simp [tracingDBTX.CopyFrom, Conn.toDBTX, createSpan, Span.End, appended, openedLabels]
  · intro part _
    refine ⟨replaceAllChar (replaceAllChar part.data nul []) dquote [dquote, dquote], rfl, ?_⟩
    rw [undouble_replaceAllChar, replaceAllChar_nil_eq_filter]
  · rw [String.data_append, List.mem_append, not_or]
    refine ⟨by decide, ?_⟩
    apply not_mem_stringsJoin (by decide)
    intro p hp
    rw [List.mem_map] at hp
    obtain ⟨part, _, rfl⟩ := hp
    exact nul_not_mem_sanitizePart part

/-- C6, as the code behaves: with the single-part target identifier `orders`
the span opened by `CopyFrom` is labelled `copyFrom:"orders"`, the identifier
being enclosed in double quotes. -/
theorem tracingDBTX_copyFrom_orders_label {σ : Type} (c : Conn σ) (ctx : Context)
    (rowSrc : CopyFromSource) (w : World σ) :
    openedLabels (appended w.trace
        ((tracingDBTX.mk c.toDBTX).CopyFrom ctx ["orders"] ["id", "total"] rowSrc w).2.trace) =
      ["copyFrom:\"orders\""] := by
  have h : "copyFrom:" ++ Identifier.Sanitize ["orders"] = "copyFrom:\"orders\"" := by decide
  simp [tracingDBTX.CopyFrom, Conn.toDBTX, createSpan, Span.End, appended, openedLabels, h]

/-- C6 refuted as stated: with the target identifier `orders`, the columns
`id`, `total` and a source of three rows, the label of the span is not
`copyFrom:orders`. -/
theorem tracingDBTX_copyFrom_orders_label_counterexample :
    openedLabels (appended world0.trace
        ((tracingDBTX.mk fakeConn.toDBTX).CopyFrom liveCtx ["orders"] ["id", "total"]
          threeRows world0).2.trace) ≠ ["copyFrom:orders"] := by
  decide

theorem nested_nil (ctx : Context) : nested ctx [] = ctx := by
  simp [nested]

theorem nested_cons (ctx : Context) (sp : Span) (spans : List Span) :
    nested { ctx with lineage := sp.id :: ctx.lineage } spans = nested ctx (sp :: spans) := by
  simp [nested]

theorem nestedTrace_cons (sp : Span) (spans : List Span) (c : Call) (before : List Event) :
    before ++ [Event.spanStart sp] ++ nestedTrace spans c ++ [Event.spanEnd sp] =
      before ++ nestedTrace (sp :: spans) c := by
  simp [nestedTrace]

theorem spanRun_length (first : Nat) (label : String) :
    ∀ n : Nat, (spanRun first label n).length = n
  | 0 => rfl
  | n + 1 => by simp [spanRun, spanRun_length (first + 1) label n]

theorem spanRun_id_ge (label : String) :
    ∀ (n first : Nat), ∀ sp ∈ spanRun first label n, first ≤ sp.id
  | 0, _, sp, h => by simp [spanRun] at h
  | n + 1, first, sp, h => by
    simp only [spanRun, List.mem_cons] at h
    rcases h with h | h
    · subst h; exact Nat.le_refl _
    · exact Nat.le_of_succ_le (spanRun_id_ge label n (first + 1) sp h)

theorem spanRun_nodup (label : String) :
    ∀ (n first : Nat), (spanRun first label n).Nodup
  | 0, _ => by simp [spanRun]
  | n + 1, first => by
    simp only [spanRun, List.nodup_cons]
    refine ⟨fun h => ?_, spanRun_nodup label n (first + 1)⟩
    have := spanRun_id_ge label n (first + 1) _ h
    simp at this

theorem spanRun_label (label : String) :
    ∀ (n first : Nat), ∀ sp ∈ spanRun first label n, sp.label = label
  | 0, _, sp, h => by simp [spanRun] at h
  | n + 1, first, sp, h => by
    simp only [spanRun, List.mem_cons] at h
    rcases h with h | h
    · subst h; rfl
    · exact spanRun_label label n (first + 1) sp h

theorem wrapTimes_Exec {σ : Type} (c : Conn σ) (s : String) (i : List Value) :
    ∀ (n : Nat) (ctx : Context) (w : World σ),
      (wrapTimes n c.toDBTX).Exec ctx s i w =
        ((c.Exec (nested ctx (spanRun w.nextSpan s n)) s i w.db).1,
          { trace := w.trace ++ nestedTrace (spanRun w.nextSpan s n)
              (Call.Exec (nested ctx (spanRun w.nextSpan s n)) s i),
            nextSpan := w.nextSpan + n,
            db := (c.Exec (nested ctx (spanRun w.nextSpan s n)) s i w.db).2 })
  | 0, ctx, w => by
    simp [wrapTimes, Conn.toDBTX, spanRun, nested_nil, nestedTrace]
  | n + 1, ctx, w => by
    have ih := wrapTimes_Exec c s i n { ctx with lineage := w.nextSpan :: ctx.lineage }
      { w with trace := w.trace ++ [Event.spanStart { id := w.nextSpan, label := s }],
               nextSpan := w.nextSpan + 1 }
    have hn := nested_cons ctx { id := w.nextSpan, label := s } (spanRun (w.nextSpan + 1) s n)
    simp only at hn
    have step : (wrapTimes (n + 1) c.toDBTX).Exec ctx s i w =
        (((wrapTimes n c.toDBTX).Exec { ctx with lineage := w.nextSpan :: ctx.lineage } s i
            { w with trace := w.trace ++ [Event.spanStart { id := w.nextSpan, label := s }],
                     nextSpan := w.nextSpan + 1 }).1,
          Span.End { id := w.nextSpan, label := s }
            ((wrapTimes n c.toDBTX).Exec { ctx with lineage := w.nextSpan :: ctx.lineage } s i
              { w with trace := w.trace ++ [Event.spanStart { id := w.nextSpan, label := s }],
                       nextSpan := w.nextSpan + 1 }).2) := rfl
    rw [step, ih]
    simp only [Span.End, spanRun, hn, ← nestedTrace_cons]
    simp [Nat.add_assoc, Nat.add_comm 1 n]

theorem wrapTimes_Query {σ : Type} (c : Conn σ) (s : String) (i : List Value) :
    ∀ (n : Nat) (ctx : Context) (w : World σ),
      (wrapTimes n c.toDBTX).Query ctx s i w =
        ((c.Query (nested ctx (spanRun w.nextSpan s n)) s i w.db).1,
          { trace := w.trace ++ nestedTrace (spanRun w.nextSpan s n)
              (Call.Query (nested ctx (spanRun w.nextSpan s n)) s i),
            nextSpan := w.nextSpan + n,
            db := (c.Query (nested ctx (spanRun w.nextSpan s n)) s i w.db).2 })
  | 0, ctx, w => by
    simp [wrapTimes, Conn.toDBTX, spanRun, nested_nil, nestedTrace]
  | n + 1, ctx, w => by
    have ih := wrapTimes_Query c s i n { ctx with lineage := w.nextSpan :: ctx.lineage }
      { w with trace := w.trace ++ [Event.spanStart { id := w.nextSpan, label := s }],
               nextSpan := w.nextSpan + 1 }
    have hn := nested_cons ctx { id := w.nextSpan, label := s } (spanRun (w.nextSpan + 1) s n)
    simp only at hn
    have step : (wrapTimes (n + 1) c.toDBTX).Query ctx s i w =
        (((wrapTimes n c.toDBTX).Query { ctx with lineage := w.nextSpan :: ctx.lineage } s i
            { w with trace := w.trace ++ [Event.spanStart { id := w.nextSpan, label := s }],
                     nextSpan := w.nextSpan + 1 }).1,
          Span.End { id := w.nextSpan, label := s }
            ((wrapTimes n c.toDBTX).Query { ctx with lineage := w.nextSpan :: ctx.lineage } s i
              { w with trace := w.trace ++ [Event.spanStart { id := w.nextSpan, label := s }],
                       nextSpan := w.nextSpan + 1 }).2) := rfl
    rw [step, ih]
    simp only [Span.End, spanRun, hn, ← nestedTrace_cons]
    simp [Nat.add_assoc, Nat.add_comm 1 n]

theorem wrapTimes_QueryRow {σ : Type} (c : Conn σ) (s : String) (i : List Value) :
    ∀ (n : Nat) (ctx : Context) (w : World σ),
      (wrapTimes n c.toDBTX).QueryRow ctx s i w =
        ((c.QueryRow (nested ctx (spanRun w.nextSpan s n)) s i w.db).1,
          { trace := w.trace ++ nestedTrace (spanRun w.nextSpan s n)
              (Call.QueryRow (nested ctx (spanRun w.nextSpan s n)) s i),
            nextSpan := w.nextSpan + n,
            db := (c.QueryRow (nested ctx (spanRun w.nextSpan s n)) s i w.db).2 })
  | 0, ctx, w => by
    simp [wrapTimes, Conn.toDBTX, spanRun, nested_nil, nestedTrace]
  | n + 1, ctx, w => by
    have ih := wrapTimes_QueryRow c s i n { ctx with lineage := w.nextSpan :: ctx.lineage }
      { w with trace := w.trace ++ [Event.spanStart { id := w.nextSpan, label := s }],
               nextSpan := w.nextSpan + 1 }
    have hn := nested_cons ctx { id := w.nextSpan, label := s } (spanRun (w.nextSpan + 1) s n)
    simp only at hn
    have step : (wrapTimes (n + 1) c.toDBTX).QueryRow ctx s i w =
        (((wrapTimes n c.toDBTX).QueryRow { ctx with lineage := w.nextSpan :: ctx.lineage } s i
            { w with trace := w.trace ++ [Event.spanStart { id := w.nextSpan, label := s }],
                     nextSpan := w.nextSpan + 1 }).1,
          Span.End { id := w.nextSpan, label := s }
            ((wrapTimes n c.toDBTX).QueryRow { ctx with lineage := w.nextSpan :: ctx.lineage } s i
              { w with trace := w.trace ++ [Event.spanStart { id := w.nextSpan, label := s }],
                       nextSpan := w.nextSpan + 1 }).2) := rfl
    rw [step, ih]
    simp only [Span.End, spanRun, hn, ← nestedTrace_cons]
    simp [Nat.add_assoc, Nat.add_comm 1 n]

theorem wrapTimes_CopyFrom {σ : Type} (c : Conn σ) (tableName : Identifier)
    (columnNames : List String) (rowSrc : CopyFromSource) :
    ∀ (n : Nat) (ctx : Context) (w : World σ),
      (wrapTimes n c.toDBTX).CopyFrom ctx tableName columnNames rowSrc w =
        ((c.CopyFrom
            (nested ctx (spanRun w.nextSpan ("copyFrom:" ++ Identifier.Sanitize tableName) n))
            tableName columnNames rowSrc w.db).1,
          { trace := w.trace ++
              nestedTrace (spanRun w.nextSpan ("copyFrom:" ++ Identifier.Sanitize tableName) n)
                (Call.CopyFrom
                  (nested ctx
                    (spanRun w.nextSpan ("copyFrom:" ++ Identifier.Sanitize tableName) n))
                  tableName columnNames rowSrc),
            nextSpan := w.nextSpan + n,
            db := (c.CopyFrom
              (nested ctx (spanRun w.nextSpan ("copyFrom:" ++ Identifier.Sanitize tableName) n))
              tableName columnNames rowSrc w.db).2 })
  | 0, ctx, w => by
    simp [wrapTimes, Conn.toDBTX, spanRun, nested_nil, nestedTrace]
  | n + 1, ctx, w => by
    have ih := wrapTimes_CopyFrom c tableName columnNames rowSrc n
      { ctx with lineage := w.nextSpan :: ctx.lineage }
      { w with
          trace := w.trace ++ [Event.spanStart
            { id := w.nextSpan, label := "copyFrom:" ++ Identifier.Sanitize tableName }],
          nextSpan := w.nextSpan + 1 }
    have hn := nested_cons ctx
      { id := w.nextSpan, label := "copyFrom:" ++ Identifier.Sanitize tableName }
      (spanRun (w.nextSpan + 1) ("copyFrom:" ++ Identifier.Sanitize tableName) n)
    simp only at hn
    have step : (wrapTimes (n + 1) c.toDBTX).CopyFrom ctx tableName columnNames rowSrc w =
        (((wrapTimes n c.toDBTX).CopyFrom { ctx with lineage := w.nextSpan :: ctx.lineage }
            tableName columnNames rowSrc
            { w with
                trace := w.trace ++ [Event.spanStart
                  { id := w.nextSpan, label := "copyFrom:" ++ Identifier.Sanitize tableName }],
                nextSpan := w.nextSpan + 1 }).1,
          Span.End { id := w.nextSpan, label := "copyFrom:" ++ Identifier.Sanitize tableName }
            ((wrapTimes n c.toDBTX).CopyFrom { ctx with lineage := w.nextSpan :: ctx.lineage }
              tableName columnNames rowSrc
              { w with
                  trace := w.trace ++ [Event.spanStart
                    { id := w.nextSpan,
                      label := "copyFrom:" ++ Identifier.Sanitize tableName }],
                  nextSpan := w.nextSpan + 1 }).2) := rfl
    rw [step, ih]
    simp only [Span.End, spanRun, hn, ← nestedTrace_cons]
    simp [Nat.add_assoc, Nat.add_comm 1 n]

/-- C7: a decorator is an executor and can be wrapped again.  For every number
`n` of nested decorators around a concrete connection (so for every `n ≥ 1`),
each operation returns exactly what the connection returns, the connection is
invoked exactly once, with the context derived through all `n` spans and the
original arguments, and the events are those of a properly nested run: `n`
distinct spans with the same label are opened, the connection is invoked, and
the spans are closed in the reverse order, each once. -/
theorem wrapTimes_nested {σ : Type} (c : Conn σ) (n : Nat) (ctx : Context) (s : String)
    (i : List Value) (tableName : Identifier) (columnNames : List String)
    (rowSrc : CopyFromSource) (w : World σ) :
    ((spanRun w.nextSpan s n).length = n ∧ (spanRun w.nextSpan s n).Nodup ∧
      (∀ sp ∈ spanRun w.nextSpan s n, sp.label = s)) ∧
    ((spanRun w.nextSpan ("copyFrom:" ++ Identifier.Sanitize tableName) n).length = n ∧
      (spanRun w.nextSpan ("copyFrom:" ++ Identifier.Sanitize tableName) n).Nodup ∧
      (∀ sp ∈ spanRun w.nextSpan ("copyFrom:" ++ Identifier.Sanitize tableName) n,
        sp.label = "copyFrom:" ++ Identifier.Sanitize tableName)) ∧
    (((wrapTimes n c.toDBTX).Exec ctx s i w).1 =
        (c.Exec (nested ctx (spanRun w.nextSpan s n)) s i w.db).1 ∧
      ((wrapTimes n c.toDBTX).Exec ctx s i w).2.db =
        (c.Exec (nested ctx (spanRun w.nextSpan s n)) s i w.db).2 ∧
      ((wrapTimes n c.toDBTX).Exec ctx s i w).2.trace =
        w.trace ++ nestedTrace (spanRun w.nextSpan s n)
          (Call.Exec (nested ctx (spanRun w.nextSpan s n)) s i)) ∧
    (((wrapTimes n c.toDBTX).Query ctx s i w).1 =
        (c.Query (nested ctx (spanRun w.nextSpan s n)) s i w.db).1 ∧
      ((wrapTimes n c.toDBTX).Query ctx s i w).2.db =
        (c.Query (nested ctx (spanRun w.nextSpan s n)) s i w.db).2 ∧
      ((wrapTimes n c.toDBTX).Query ctx s i w).2.trace =
        w.trace ++ nestedTrace (spanRun w.nextSpan s n)
          (Call.Query (nested ctx (spanRun w.nextSpan s n)) s i)) ∧
    (((wrapTimes n c.toDBTX).QueryRow ctx s i w).1 =
        (c.QueryRow (nested ctx (spanRun w.nextSpan s n)) s i w.db).1 ∧
      ((wrapTimes n c.toDBTX).QueryRow ctx s i w).2.db =
        (c.QueryRow (nested ctx (spanRun w.nextSpan s n)) s i w.db).2 ∧
      ((wrapTimes n c.toDBTX).QueryRow ctx s i w).2.trace =
        w.trace ++ nestedTrace (spanRun w.nextSpan s n)
          (Call.QueryRow (nested ctx (spanRun w.nextSpan s n)) s i)) ∧
    (((wrapTimes n c.toDBTX).CopyFrom ctx tableName columnNames rowSrc w).1 =
        (c.CopyFrom
          (nested ctx (spanRun w.nextSpan ("copyFrom:" ++ Identifier.Sanitize tableName) n))
          tableName columnNames rowSrc w.db).1 ∧
      ((wrapTimes n c.toDBTX).CopyFrom ctx tableName columnNames rowSrc w).2.db =
        (c.CopyFrom
          (nested ctx (spanRun w.nextSpan ("copyFrom:" ++ Identifier.Sanitize tableName) n))
          tableName columnNames rowSrc w.db).2 ∧
      ((wrapTimes n c.toDBTX).CopyFrom ctx tableName columnNames rowSrc w).2.trace =
        w.trace ++
          nestedTrace (spanRun w.nextSpan ("copyFrom:" ++ Identifier.Sanitize tableName) n)
            (Call.CopyFrom
              (nested ctx
                (spanRun w.nextSpan ("copyFrom:" ++ Identifier.Sanitize tableName) n))
              tableName columnNames rowSrc)) := by
  refine ⟨⟨spanRun_length _ _ _, spanRun_nodup _ _ _, spanRun_label _ _ _⟩,
    ⟨spanRun_length _ _ _, spanRun_nodup _ _ _, spanRun_label _ _ _⟩, ?_, ?_, ?_, ?_⟩
  · rw [wrapTimes_Exec]; exact ⟨rfl, rfl, rfl⟩
  · rw [wrapTimes_Query]; exact ⟨rfl, rfl, rfl⟩
  · rw [wrapTimes_QueryRow]; exact ⟨rfl, rfl, rfl⟩
  · rw [wrapTimes_CopyFrom]; exact ⟨rfl, rfl, rfl⟩

end query
end RangeDB

namespace RangeDB
namespace utils

/-! ## Properties of `VersionToInt` -/

theorem wrap64_of_range {x : Int} (h1 : -2 ^ 63 ≤ x) (h2 : x < 2 ^ 63) : wrap64 x = x := by
  unfold wrap64
  omega

theorem versionValue_eq (a b c : Int) :
    add64 (add64 (mul64 (mul64 a 10000) 10000) (mul64 b 10000)) c =
      wrap64 (a * 100000000 + b * 10000 + c) := by
  unfold add64 mul64 wrap64
  omega

theorem foldl_digit_ge (ds : List Char) :
    ∀ n : Nat, n ≤ ds.foldl (fun n c => 10 * n + (c.toNat - 48)) n := by
  induction ds with
  | nil => intro n; exact Nat.le_refl _
  | cons c cs ih =>
    intro n
    have := ih (10 * n + (c.toNat - 48))
    simp only [List.foldl_cons]
    omega

theorem cutoff_eq : maxUint64 / 10 + 1 = 1844674407370955162 := by
  decide

theorem parseUintLoop_ok (ds : List Char) :
    ∀ n : Nat, ds.all isDecimalDigit = true →
      ds.foldl (fun n c => 10 * n + (c.toNat - 48)) n < 2 ^ 64 →
      parseUintLoop ds n = (ds.foldl (fun n c => 10 * n + (c.toNat - 48)) n, none) := by
  induction ds with
  | nil => intro n _ _; rfl
  | cons c cs ih =>
    intro n hall hlt
    simp only [List.all_cons, Bool.and_eq_true, isDecimalDigit, decide_eq_true_eq] at hall
    obtain ⟨hc, hcs⟩ := hall
    simp only [List.foldl_cons] at hlt ⊢
    have hge := foldl_digit_ge cs (10 * n + (c.toNat - 48))
    have hrec := ih (10 * n + (c.toNat - 48)) hcs hlt
    rw [parseUintLoop, if_pos hc, cutoff_eq]
    have h1 : ¬ n ≥ 1844674407370955162 := by omega
    rw [if_neg h1]
    have h2 : n * 10 % 2 ^ 64 = n * 10 := by omega
    have h3 : (n * 10 + (c.toNat - 48)) % 2 ^ 64 = 10 * n + (c.toNat - 48) := by omega
    simp only [h2, h3]
    have h4 : ¬ (10 * n + (c.toNat - 48) < n * 10 ∨ 10 * n + (c.toNat - 48) > maxUint64) := by
      unfold maxUint64; omega
    rw [if_neg h4]
    exact hrec

theorem parseUintLoop_err (ds : List Char) :
    ∀ n : Nat, n < 2 ^ 64 →
      ¬ (ds.all isDecimalDigit = true ∧
        ds.foldl (fun n c => 10 * n + (c.toNat - 48)) n < 2 ^ 64) →
      parseUintLoop ds n = (0, some ErrSyntax) ∨
        parseUintLoop ds n = (maxUint64, some ErrRange) := by
  induction ds with
  | nil => intro n hn h; exact absurd ⟨rfl, hn⟩ h
  | cons c cs ih =>
    intro n hn h
    rw [parseUintLoop]
    by_cases hc : 48 ≤ c.toNat ∧ c.toNat ≤ 57
    · rw [if_pos hc, cutoff_eq]
      by_cases h1 : n ≥ 1844674407370955162
      · rw [if_pos h1]; exact Or.inr rfl
      · rw [if_neg h1]
        have h2 : n * 10 % 2 ^ 64 = n * 10 := by omega
        simp only [h2]
        by_cases h4 : (n * 10 + (c.toNat - 48)) % 2 ^ 64 < n * 10 ∨
            (n * 10 + (c.toNat - 48)) % 2 ^ 64 > maxUint64
        · rw [if_pos h4]; exact Or.inr rfl
        · rw [if_neg h4]
          have h5 : n * 10 + (c.toNat - 48) < 2 ^ 64 := by
            by_contra h6
            apply h4
            left
            omega
          have h3 : (n * 10 + (c.toNat - 48)) % 2 ^ 64 = 10 * n + (c.toNat - 48) := by omega
          rw [h3]
          apply ih _ (by omega)
          intro ⟨ha, hb⟩
          apply h
          refine ⟨?_, ?_⟩
          · simp only [List.all_cons, Bool.and_eq_true, isDecimalDigit, decide_eq_true_eq]
            exact ⟨hc, ha⟩
          · simpa only [List.foldl_cons] using hb
    · rw [if_neg hc]; exact Or.inl rfl

theorem ParseUint_ok (ds : List Char) (hne : ds ≠ []) (hall : ds.all isDecimalDigit = true)
    (hlt : decimalValue ds < 2 ^ 64) : ParseUint ds = (decimalValue ds, none) := by
  rw [ParseUint, if_neg hne]
  exact parseUintLoop_ok ds 0 hall hlt

theorem ParseUint_err (ds : List Char)
    (h : ¬ (ds ≠ [] ∧ ds.all isDecimalDigit = true ∧ decimalValue ds < 2 ^ 64)) :
    ParseUint ds = (0, some ErrSyntax) ∨ ParseUint ds = (maxUint64, some ErrRange) := by
  by_cases hne : ds = []
  · rw [ParseUint, if_pos hne]; exact Or.inl rfl
  · rw [ParseUint, if_neg hne]
    exact parseUintLoop_err ds 0 (by norm_num) (fun hh => h ⟨hne, hh.1, hh.2⟩)

theorem parseIntRange_max (neg : Bool) (s0 : List Char) :
    ∃ e, (parseIntRange neg maxUint64 s0).2 = some e := by
  cases neg
  · exact ⟨_, rfl⟩
  · exact ⟨_, rfl⟩

theorem ParseInt_cons_of_err (c : Char) (cs : List Char)
    (h : ParseUint (if c = '+' ∨ c = '-' then cs else c :: cs) = (0, some ErrSyntax) ∨
      ParseUint (if c = '+' ∨ c = '-' then cs else c :: cs) = (maxUint64, some ErrRange)) :
    ∃ e, (ParseInt (c :: cs)).2 = some e := by
  rcases h with h | h
  · refine ⟨GoError.NumError "ParseInt" (String.mk (c :: cs)) ErrSyntax, ?_⟩
    simp only [ParseInt, h]
    rfl
  · simp only [ParseInt, h]
    exact parseIntRange_max _ _

theorem parseIntRange_spec (neg : Bool) (un : Nat) (s0 : List Char) (hun : un < 2 ^ 64) :
    (∀ x : Int, (if neg = true then -Int.ofNat un else Int.ofNat un) = x →
        -2 ^ 63 ≤ x → x ≤ 2 ^ 63 - 1 → parseIntRange neg un s0 = (x, none)) ∧
    (¬ (-2 ^ 63 ≤ (if neg = true then -Int.ofNat un else Int.ofNat un) ∧
        (if neg = true then -Int.ofNat un else Int.ofNat un) ≤ 2 ^ 63 - 1) →
      ∃ e, (parseIntRange neg un s0).2 = some e) := by
  cases neg
  · constructor
    · intro x hx h1 h2
      simp only [Bool.false_eq_true, if_false] at hx
      subst hx
      simp only [Int.ofNat_eq_coe] at h1 h2 ⊢
      have h3 : ¬ (9223372036854775808 ≤ un) := by omega
      have hw : wrap64 (un : Int) = (un : Int) := wrap64_of_range (by omega) (by omega)
      simp [parseIntRange, h3, hw]
    · intro h
      simp only [Bool.false_eq_true, if_false, Int.ofNat_eq_coe] at h
      have h3 : 9223372036854775808 ≤ un := by omega
      simp [parseIntRange, h3]
  · constructor
    · intro x hx h1 h2
      simp only [if_true] at hx
      subst hx
      simp only [Int.ofNat_eq_coe] at h1 h2 ⊢
      have h3 : ¬ (9223372036854775808 < un) := by omega
      have hw : wrap64 (-wrap64 (un : Int)) = -(un : Int) := by
        unfold wrap64
        omega
      simp [parseIntRange, h3, hw]
    · intro h
      simp only [if_true, Int.ofNat_eq_coe] at h
      have h3 : 9223372036854775808 < un := by omega
      simp [parseIntRange, h3]

theorem decimalInt64?_cons (c : Char) (cs : List Char) :
    decimalInt64? (c :: cs) =
      if (if c = '+' ∨ c = '-' then cs else c :: cs) ≠ [] ∧
          (if c = '+' ∨ c = '-' then cs else c :: cs).all isDecimalDigit = true then
        if -2 ^ 63 ≤ (if decide (c = '-') = true then
              -Int.ofNat (decimalValue (if c = '+' ∨ c = '-' then cs else c :: cs))
            else Int.ofNat (decimalValue (if c = '+' ∨ c = '-' then cs else c :: cs))) ∧
            (if decide (c = '-') = true then
              -Int.ofNat (decimalValue (if c = '+' ∨ c = '-' then cs else c :: cs))
            else Int.ofNat (decimalValue (if c = '+' ∨ c = '-' then cs else c :: cs))) ≤
              2 ^ 63 - 1 then
          some (if decide (c = '-') = true then
              -Int.ofNat (decimalValue (if c = '+' ∨ c = '-' then cs else c :: cs))
            else Int.ofNat (decimalValue (if c = '+' ∨ c = '-' then cs else c :: cs)))
        else none
      else none := by
  simp [decimalInt64?]

theorem ParseInt_of_some (s : List Char) (x : Int) (h : decimalInt64? s = some x) :
    ParseInt s = (x, none) := by
  cases s with
  | nil => simp [decimalInt64?] at h
  | cons c cs =>
    rw [decimalInt64?_cons] at h
    by_cases h1 : (if c = '+' ∨ c = '-' then cs else c :: cs) ≠ [] ∧
        (if c = '+' ∨ c = '-' then cs else c :: cs).all isDecimalDigit = true
    · rw [if_pos h1] at h
      by_cases h2 : -2 ^ 63 ≤ (if decide (c = '-') = true then
              -Int.ofNat (decimalValue (if c = '+' ∨ c = '-' then cs else c :: cs))
            else Int.ofNat (decimalValue (if c = '+' ∨ c = '-' then cs else c :: cs))) ∧
            (if decide (c = '-') = true then
              -Int.ofNat (decimalValue (if c = '+' ∨ c = '-' then cs else c :: cs))
            else Int.ofNat (decimalValue (if c = '+' ∨ c = '-' then cs else c :: cs))) ≤
              2 ^ 63 - 1
      · rw [if_pos h2, Option.some.injEq] at h
        have hlt : decimalValue (if c = '+' ∨ c = '-' then cs else c :: cs) < 2 ^ 64 := by
          by_cases hc : decide (c = '-') = true
          · simp only [hc, if_true, Int.ofNat_eq_coe] at h2; omega
          · simp only [hc, Int.ofNat_eq_coe] at h2
            simp only [Bool.false_eq_true, if_false] at h2
            omega
        have hu := ParseUint_ok _ h1.1 h1.2 hlt
        have hr := (parseIntRange_spec (decide (c = '-'))
          (decimalValue (if c = '+' ∨ c = '-' then cs else c :: cs)) (c :: cs) hlt).1
            x h (h ▸ h2.1) (h ▸ h2.2)
        simp only [ParseInt, hu]
        exact hr
      · rw [if_neg h2] at h
        exact absurd h (by simp)
    · rw [if_neg h1] at h
      exact absurd h (by simp)

theorem ParseInt_of_none (s : List Char) (h : decimalInt64? s = none) :
    ∃ e, (ParseInt s).2 = some e := by
  cases s with
  | nil => exact ⟨_, rfl⟩
  | cons c cs =>
    rw [decimalInt64?_cons] at h
    by_cases h1 : (if c = '+' ∨ c = '-' then cs else c :: cs) ≠ [] ∧
        (if c = '+' ∨ c = '-' then cs else c :: cs).all isDecimalDigit = true
    · rw [if_pos h1] at h
      by_cases hlt : decimalValue (if c = '+' ∨ c = '-' then cs else c :: cs) < 2 ^ 64
      · have hu := ParseUint_ok _ h1.1 h1.2 hlt
        have hr := (parseIntRange_spec (decide (c = '-'))
          (decimalValue (if c = '+' ∨ c = '-' then cs else c :: cs)) (c :: cs) hlt).2
        simp only [ParseInt, hu]
        apply hr
        intro h2
        rw [if_pos h2] at h
        exact absurd h (by simp)
      · exact ParseInt_cons_of_err c cs (ParseUint_err _ (fun hh => hlt hh.2.2))
    · exact ParseInt_cons_of_err c cs (ParseUint_err _ (fun hh => h1 ⟨hh.1, hh.2.1⟩))

set_option maxRecDepth 4000

theorem components_cases (parts : List (List Char)) (t : Int × Int × Int)
    (h : (match parts.map decimalInt64? with
      | [some p0] => some (p0, 0, 0)
      | [some p0, some p1] => some (p0, p1, 0)
      | [some p0, some p1, some p2] => some (p0, p1, p2)
      | _ => none) = some t) :
    (∃ a, parts = [a] ∧ decimalInt64? a = some t.1 ∧ t.2.1 = 0 ∧ t.2.2 = 0) ∨
    (∃ a b, parts = [a, b] ∧ decimalInt64? a = some t.1 ∧ decimalInt64? b = some t.2.1 ∧
      t.2.2 = 0) ∨
    (∃ a b c, parts = [a, b, c] ∧ decimalInt64? a = some t.1 ∧
      decimalInt64? b = some t.2.1 ∧ decimalInt64? c = some t.2.2) := by
  match parts, h with
  | [], h => simp at h
  | [a], h =>
    left
    cases ha : decimalInt64? a with
    | none => simp [ha] at h
    | some x =>
      simp only [List.map_cons, List.map_nil, ha, Option.some.injEq] at h
      subst h
      exact ⟨a, rfl, ha, rfl, rfl⟩
  | [a, b], h =>
    right; left
    cases ha : decimalInt64? a with
    | none => simp [ha] at h
    | some x =>
      cases hb : decimalInt64? b with
      | none => simp [ha, hb] at h
      | some y =>
        simp only [List.map_cons, List.map_nil, ha, hb, Option.some.injEq] at h
        subst h
        exact ⟨a, b, rfl, ha, hb, rfl⟩
  | [a, b, c], h =>
    right; right
    cases ha : decimalInt64? a with
    | none => simp [ha] at h
    | some x =>
      cases hb : decimalInt64? b with
      | none => simp [ha, hb] at h
      | some y =>
        cases hc : decimalInt64? c with
        | none => simp [ha, hb, hc] at h
        | some z =>
          simp only [List.map_cons, List.map_nil, ha, hb, hc, Option.some.injEq] at h
          subst h
          exact ⟨a, b, c, rfl, ha, hb, hc⟩
  | _ :: _ :: _ :: _ :: _, h => simp at h

theorem VersionToInt_of_components (v : String) (t : Int × Int × Int)
    (h : components? v = some t) :
    VersionToInt v = (wrap64 (t.1 * 100000000 + t.2.1 * 10000 + t.2.2), none) := by
  obtain ⟨t0, t1, t2⟩ := t
  rcases components_cases (stringsSplit v.data) (t0, t1, t2) h with
    ⟨a, hp, ha, h1, h2⟩ | ⟨a, b, hp, ha, hb, h2⟩ | ⟨a, b, c, hp, ha, hb, hc⟩
  · simp only at ha h1 h2
    subst h1 h2
    simp only [VersionToInt, hp, fillParts, ParseInt_of_some a t0 ha]
    simp [versionValue_eq]
  · simp only at ha hb h2
    subst h2
    simp only [VersionToInt, hp, fillParts, ParseInt_of_some a t0 ha, ParseInt_of_some b t1 hb]
    simp [versionValue_eq]
  · simp only at ha hb hc
    simp only [VersionToInt, hp, fillParts, ParseInt_of_some a t0 ha, ParseInt_of_some b t1 hb,
      ParseInt_of_some c t2 hc]
    simp [versionValue_eq]

/-- C8: for every version text whose components are `p0`, `p1`, `p2` (the text
splits at the dots into at most three parts, each a valid base-10 signed 64-bit
integer, a missing part counting as 0), `VersionToInt` returns a nil error and
the value `p0*100000000 + p1*10000 + p2` in 64-bit signed arithmetic; for
`18.02.66` it returns 1800020066. -/
theorem VersionToInt_value (v : String) (p0 p1 p2 : Int)
    (h : components? v = some (p0, p1, p2)) :
    VersionToInt v = (wrap64 (p0 * 100000000 + p1 * 10000 + p2), none) ∧
    VersionToInt "18.02.66" = (1800020066, none) :=
  ⟨VersionToInt_of_components v (p0, p1, p2) h, by decide⟩

/-- A witness of C8: the version `1.2` has the components 1, 2, 0 and the
value 100020000. -/
theorem VersionToInt_value_witness :
    components? "1.2" = some (1, 2, 0) ∧ VersionToInt "1.2" = (100020000, none) :=
  ⟨by decide, (VersionToInt_value "1.2" 1 2 0 (by decide)).1⟩

theorem errorsIs_wrapped (f : String) (a : GoError) :
    errorsIs (GoError.Errorf f a ErrVersionBadFormat) ErrVersionBadFormat = true := by
  simp [errorsIs, ErrVersionBadFormat]

theorem fillParts_error_is (parts : List (List Char)) :
    ∀ (i : Nat) (acc : List Int) (e : GoError),
      fillParts parts i acc = Except.error e → errorsIs e ErrVersionBadFormat = true := by
  induction parts with
  | nil => intro i acc e h; simp [fillParts] at h
  | cons p rest ih =>
    intro i acc e h
    cases hp : ParseInt p with
    | mk vp err =>
      cases err with
      | none =>
        simp only [fillParts, hp] at h
        exact ih _ _ e h
      | some pe =>
        simp only [fillParts, hp, Except.error.injEq] at h
        subst h
        exact errorsIs_wrapped _ _

theorem fillParts_ok (parts : List (List Char)) :
    ∀ (i : Nat) (acc : List Int), (∀ p ∈ parts, decimalInt64? p ≠ none) →
      ∃ l, fillParts parts i acc = Except.ok l := by
  induction parts with
  | nil => intro i acc _; exact ⟨acc, rfl⟩
  | cons p rest ih =>
    intro i acc h
    obtain ⟨x, hx⟩ := Option.ne_none_iff_exists'.mp (h p (List.mem_cons_self _ _))
    simp only [fillParts, ParseInt_of_some p x hx]
    exact ih _ _ (fun q hq => h q (List.mem_cons_of_mem _ hq))

theorem fillParts_error (parts : List (List Char)) :
    ∀ (i : Nat) (acc : List Int), (∃ p ∈ parts, decimalInt64? p = none) →
      ∃ e, fillParts parts i acc = Except.error e := by
  induction parts with
  | nil => intro i acc h; simp at h
  | cons p rest ih =>
    intro i acc h
    cases hp : decimalInt64? p with
    | none =>
      obtain ⟨e, he⟩ := ParseInt_of_none p hp
      cases hq : ParseInt p with
      | mk vp err =>
        rw [hq] at he
        simp only at he
        subst he
        exact ⟨GoError.Errorf "error in ParseInt: %s %w" e ErrVersionBadFormat,
          by simp only [fillParts, hq]⟩
    | some x =>
      simp only [fillParts, ParseInt_of_some p x hp]
      apply ih
      obtain ⟨q, hq, hn⟩ := h
      rcases List.mem_cons.mp hq with rfl | hq
      · rw [hp] at hn; exact absurd hn (by simp)
      · exact ⟨q, hq, hn⟩

/-- C9: `VersionToInt` fails exactly on badly formatted input: its error is
non-nil if and only if the text splits at the dots into more than three parts
or one of the parts is not a valid base-10 signed 64-bit integer.  Whenever it
fails, the integer returned is -1 and the error is `ErrVersionBadFormat` or
wraps it.  The empty text, `1..2` and `1.2.3.4` all fail. -/
theorem VersionToInt_error (v : String) :
    ((VersionToInt v).2 ≠ none ↔
      ((stringsSplit v.data).length > 3 ∨
        ∃ p ∈ stringsSplit v.data, decimalInt64? p = none)) ∧
    (∀ e, (VersionToInt v).2 = some e →
      (VersionToInt v).1 = -1 ∧ errorsIs e ErrVersionBadFormat = true) ∧
    ((VersionToInt "").2 ≠ none ∧ (VersionToInt "1..2").2 ≠ none ∧
      (VersionToInt "1.2.3.4").2 ≠ none) := by
  refine ⟨?_, ?_, by decide, by decide, by decide⟩
  · by_cases hlen : (stringsSplit v.data).length > 3
    · simp [VersionToInt, hlen]
    · by_cases hex : ∃ p ∈ stringsSplit v.data, decimalInt64? p = none
      · obtain ⟨e, he⟩ := fillParts_error (stringsSplit v.data) 0 [0, 0, 0] hex
        simp only [VersionToInt, if_neg hlen, he]
        simp [hex]
      · have hall : ∀ p ∈ stringsSplit v.data, decimalInt64? p ≠ none :=
          fun p hp hn => hex ⟨p, hp, hn⟩
        obtain ⟨l, hl⟩ := fillParts_ok (stringsSplit v.data) 0 [0, 0, 0] hall
        simp only [VersionToInt, if_neg hlen, hl]
        simp [hlen, hex]
  · intro e he
    by_cases hlen : (stringsSplit v.data).length > 3
    · simp only [VersionToInt, if_pos hlen, Option.some.injEq] at he ⊢
      subst he
      exact ⟨trivial, by simp [errorsIs, ErrVersionBadFormat]⟩
    · cases hf : fillParts (stringsSplit v.data) 0 [0, 0, 0] with
      | error err =>
        simp only [VersionToInt, if_neg hlen, hf, Option.some.injEq] at he ⊢
        subst he
        exact ⟨trivial, fillParts_error_is _ _ _ _ hf⟩
      | ok l =>
        simp [VersionToInt, if_neg hlen, hf] at he

/-- A witness of C9: `1..2` fails with -1 and an error that wraps
`ErrVersionBadFormat`. -/
theorem VersionToInt_error_witness :
    (VersionToInt "1..2").1 = -1 ∧
    errorsIs
      (GoError.Errorf "error in ParseInt: %s %w" (GoError.NumError "ParseInt" "" ErrSyntax)
        ErrVersionBadFormat)
      ErrVersionBadFormat = true :=
  (VersionToInt_error "1..2").2.1 _ (by decide)

/-- C10: `VersionToInt` preserves the order of versions whose components all
lie between 0 and 9999: on two such versions it succeeds, the value of the
first is smaller than the value of the second if and only if the components of
the first come lexicographically before those of the second, and the values
are equal if and only if the components are equal. -/
theorem VersionToInt_order (a b : String) (ta tb : Int × Int × Int)
    (ha : components? a = some ta) (hb : components? b = some tb)
    (hra : inRange ta) (hrb : inRange tb) :
    ((VersionToInt a).2 = none ∧ (VersionToInt b).2 = none) ∧
    ((VersionToInt a).1 < (VersionToInt b).1 ↔ lexLt ta tb) ∧
    ((VersionToInt a).1 = (VersionToInt b).1 ↔ ta = tb) := by
  obtain ⟨a0, a1, a2⟩ := ta
  obtain ⟨b0, b1, b2⟩ := tb
  simp only [inRange] at hra hrb
  rw [VersionToInt_of_components a _ ha, VersionToInt_of_components b _ hb]
  simp only
  rw [wrap64_of_range (by omega) (by omega), wrap64_of_range (by omega) (by omega)]
  refine ⟨⟨trivial, trivial⟩, ?_, ?_⟩
  · simp only [lexLt]
    omega
  · simp only [Prod.mk.injEq]
    omega

/-- A witness of C10: `1.2.3` comes before `1.10`. -/
theorem VersionToInt_order_witness :
    (VersionToInt "1.2.3").1 < (VersionToInt "1.10").1 :=
  ((VersionToInt_order "1.2.3" "1.10" (1, 2, 3) (1, 10, 0) (by decide) (by decide)
    (by simp [inRange]) (by simp [inRange])).2.1).mpr (by simp [lexLt])

end utils
end RangeDB
